import Mathlib

/-!
Shallow embedding of `payfazz/psql-migration` (Go).

Strings are modelled as lists of bytes (`List Nat`), matching Go's byte-wise
string semantics.  The embedding covers:

* the character-scan content hash `hash` (file `part_002`, lines 72–135),
  including a real SHA-256 so the repository's own test vectors
  (`hash_test.go`) validate the embedding;
* the id/hash-table Runner (`migration.go`: `Check`, `Run`, `onPgxNotice`)
  together with `New`'s catalog construction (sort + duplicate check);
* the ordinal ("user_version") variant (`part_001`: `migrate`, `normalize`,
  `computeHash`), including its dry-run mode and its unguarded
  `statements[i]` indexing.

Database effects are modelled explicitly: the metadata table is a value,
statement execution is an environment parameter, and the enclosing
transaction is a working copy that is committed or discarded, mirroring the
`committed` flag with its deferred `rollback` in the Go code.
-/

namespace PsqlMigration

/-- ASCII bytes of a string literal (used only on ASCII inputs, where Go's
UTF-8 bytes coincide with the code points). -/
def str (s : String) : List Nat := s.data.map Char.toNat

/-! ### Byte-level character classes (Go `unicode.IsSpace(rune(c))` on a byte,
`strings.ToLower` / `strings.ToUpper` restricted to ASCII) -/

/-- `unicode.IsSpace` on a single byte interpreted as a rune: the Latin-1
space characters. -/
def isSpace (c : Nat) : Bool :=
  c = 9 || c = 10 || c = 11 || c = 12 || c = 13 || c = 32 || c = 133 || c = 160

/-- byte-wise ASCII lower-casing, as `strings.ToLower` acts on ASCII text. -/
def lowerByte (c : Nat) : Nat := if 65 ≤ c ∧ c ≤ 90 then c + 32 else c

/-- byte-wise ASCII upper-casing, as `strings.ToUpper` acts on ASCII text. -/
def upperByte (c : Nat) : Nat := if 97 ≤ c ∧ c ≤ 122 then c - 32 else c

def toLowerBytes (s : List Nat) : List Nat := s.map lowerByte

def toUpperBytes (s : List Nat) : List Nat := s.map upperByte

/-- `strings.ReplaceAll(s, "\r\n", "\n")` followed by
`strings.ReplaceAll(s, "\r", "\n")` (part_002, lines 74–75). -/
def fixCR : List Nat → List Nat
  | [] => []
  | 13 :: 10 :: rest => 10 :: fixCR rest
  | 13 :: rest => 10 :: fixCR rest
  | c :: rest => c :: fixCR rest

/-! ### The character scan of `hash` (part_002, lines 86–132)

The Go loop is a three-state machine over byte index `i`; we express it as a
single structurally recursive function over the remaining bytes, with the
state (`normal` / line comment / block comment with nesting depth) explicit.
Byte 45 is `-`, 47 is `/`, 42 is `*`, 10 is `\n`. -/

inductive ScanState where
  | normal
  | lineC
  | blockC (depth : Nat)
deriving DecidableEq

/-- One pass of the Go scanner: returns exactly the bytes the Go code writes
into the SHA-256 hasher (`sum.Write`). -/
def scan : ScanState → List Nat → List Nat
  | .normal, [] => []
  | .normal, [c] => if isSpace c then [] else [c]
  | .normal, c :: d :: rest =>
      if isSpace c then scan .normal (d :: rest)
      else if c = 45 && d = 45 then scan .lineC rest
      else if c = 47 && d = 42 then scan (.blockC 1) rest
      else c :: scan .normal (d :: rest)
  | .lineC, [] => []
  | .lineC, c :: rest => if c = 10 then scan .normal rest else scan .lineC rest
  | .blockC _, [] => []
  | .blockC _, [_] => []
  | .blockC depth, c :: d :: rest =>
      if c = 47 && d = 42 then scan (.blockC (depth + 1)) rest
      else if c = 42 && d = 47 then
        (if depth = 1 then scan .normal rest else scan (.blockC (depth - 1)) rest)
      else scan (.blockC depth) (d :: rest)

/-- The canonicalization the content hash applies before hashing: line-ending
unification, lower-casing, then the comment/whitespace-dropping scan. -/
def normalize (s : List Nat) : List Nat :=
  scan .normal (toLowerBytes (fixCR s))

/-! ### SHA-256 (Go `crypto/sha256`, an external collaborator; implemented
here bit-for-bit so the repository's test vectors are checkable) -/

def mask32 : Nat := 4294967295

def rotr (n x : Nat) : Nat := ((x >>> n) ||| (x <<< (32 - n))) &&& mask32

structure Sha8 where
  a : Nat
  b : Nat
  c : Nat
  d : Nat
  e : Nat
  f : Nat
  g : Nat
  h : Nat
deriving DecidableEq

def shaInit : Sha8 :=
  ⟨1779033703, 3144134277, 1013904242, 2773480762,
   1359893119, 2600822924, 528734635, 1541459225⟩

def shaK : List Nat :=
  [1116352408, 1899447441, 3049323471, 3921009573, 961987163, 1508970993,
   2453635748, 2870763221, 3624381080, 310598401, 607225278, 1426881987,
   1925078388, 2162078206, 2614888103, 3248222580, 3835390401, 4022224774,
   264347078, 604807628, 770255983, 1249150122, 1555081692, 1996064986,
   2554220882, 2821834349, 2952996808, 3210313671, 3336571891, 3584528711,
   113926993, 338241895, 666307205, 773529912, 1294757372, 1396182291,
   1695183700, 1986661051, 2177026350, 2456956037, 2730485921, 2820302411,
   3259730800, 3345764771, 3516065817, 3600352804, 4094571909, 275423344,
   430227734, 506948616, 659060556, 883997877, 958139571, 1322822218,
   1537002063, 1747873779, 1955562222, 2024104815, 2227730452, 2361852424,
   2428436474, 2756734187, 3204031479, 3329325298]

def smallSigma0 (w : Nat) : Nat := rotr 7 w ^^^ rotr 18 w ^^^ (w >>> 3)

def smallSigma1 (w : Nat) : Nat := rotr 17 w ^^^ rotr 19 w ^^^ (w >>> 10)

/-- Extend the 16 schedule words to 64 (`fuel` = 48 additional words). -/
def extendW (w : List Nat) : Nat → List Nat
  | 0 => w
  | n + 1 =>
      let i := w.length
      let nw := (w.getD (i - 16) 0 + smallSigma0 (w.getD (i - 15) 0) +
                 w.getD (i - 7) 0 + smallSigma1 (w.getD (i - 2) 0)) &&& mask32
      extendW (w ++ [nw]) n

def shaStep (s : Sha8) (kw : Nat × Nat) : Sha8 :=
  let s1 := rotr 6 s.e ^^^ rotr 11 s.e ^^^ rotr 25 s.e
  let ch := (s.e &&& s.f) ^^^ ((s.e ^^^ mask32) &&& s.g)
  let t1 := (s.h + s1 + ch + kw.1 + kw.2) &&& mask32
  let s0 := rotr 2 s.a ^^^ rotr 13 s.a ^^^ rotr 22 s.a
  let mj := (s.a &&& s.b) ^^^ (s.a &&& s.c) ^^^ (s.b &&& s.c)
  let t2 := (s0 + mj) &&& mask32
  ⟨(t1 + t2) &&& mask32, s.a, s.b, s.c, (s.d + t1) &&& mask32, s.e, s.f, s.g⟩

/-- Big-endian 32-bit words from bytes (input length a multiple of 4). -/
def bytesToWords : List Nat → List Nat
  | a :: b :: c :: d :: rest =>
      (a <<< 24 + b <<< 16 + c <<< 8 + d) :: bytesToWords rest
  | _ => []

def processBlock (hv : Sha8) (block : List Nat) : Sha8 :=
  let w := extendW (bytesToWords block) 48
  let s := (shaK.zip w).foldl shaStep hv
  ⟨(hv.a + s.a) &&& mask32, (hv.b + s.b) &&& mask32, (hv.c + s.c) &&& mask32,
   (hv.d + s.d) &&& mask32, (hv.e + s.e) &&& mask32, (hv.f + s.f) &&& mask32,
   (hv.g + s.g) &&& mask32, (hv.h + s.h) &&& mask32⟩

/-- Split into 64-byte blocks; `fuel` = number of blocks. -/
def chunks64 : Nat → List Nat → List (List Nat)
  | 0, _ => []
  | n + 1, l => l.take 64 :: chunks64 n (l.drop 64)

/-- SHA-256 padding: `0x80`, zeros to 56 mod 64, then the 64-bit big-endian
bit length. -/
def shaPad (msg : List Nat) : List Nat :=
  let len := msg.length
  let zeros := (120 - (len + 1) % 64) % 64
  let bits := 8 * len
  msg ++ [128] ++ List.replicate zeros 0 ++
    [bits >>> 56 &&& 255, bits >>> 48 &&& 255, bits >>> 40 &&& 255,
     bits >>> 32 &&& 255, bits >>> 24 &&& 255, bits >>> 16 &&& 255,
     bits >>> 8 &&& 255, bits &&& 255]

def wordBytes (w : Nat) : List Nat :=
  [w >>> 24 &&& 255, w >>> 16 &&& 255, w >>> 8 &&& 255, w &&& 255]

/-- SHA-256 digest (32 bytes) of a byte string. -/
def sha256 (msg : List Nat) : List Nat :=
  let padded := shaPad msg
  let final := (chunks64 (padded.length / 64) padded).foldl processBlock shaInit
  wordBytes final.a ++ wordBytes final.b ++ wordBytes final.c ++
    wordBytes final.d ++ wordBytes final.e ++ wordBytes final.f ++
    wordBytes final.g ++ wordBytes final.h

/-- lowercase hex digit, as Go `encoding/hex`. -/
def hexDigit (n : Nat) : Nat := if n < 10 then 48 + n else 87 + n

def hexEncode : List Nat → List Nat
  | [] => []
  | b :: rest => hexDigit (b / 16) :: hexDigit (b % 16) :: hexEncode rest

/-- `hash` of part_002: SHA-256 of the scan's retained bytes, hex-encoded.
(Feeding bytes incrementally into `sum` equals hashing their concatenation.) -/
def hash (sql : List Nat) : List Nat := hexEncode (sha256 (normalize sql))

/-! ### The id/hash-table Runner (`migration.go`)

Metadata rows and catalog entries.  `Go` string comparison is byte-wise, so
ids are byte lists ordered lexicographically. -/

structure Entry where
  id : List Nat
  statement : List Nat
  hash : List Nat
deriving DecidableEq

structure Record where
  id : List Nat
  hash : List Nat
deriving DecidableEq

/-- `MismatchHashError` as used in `migration.go` lines 168 and 172: the
missing-id case leaves `CurrentHash` at its zero value (empty). -/
structure MismatchHashError where
  ID : List Nat
  CurrentHash : List Nat := []
  HashInDB : List Nat
deriving DecidableEq

/-- Errors `Run` can return (besides those of `Check`): the two
`fmt.Errorf` cases, each naming the offending entry's id. -/
inductive RunError where
  | mismatch (e : MismatchHashError)
  | execError (id : List Nat)
  | nestedTx (id : List Nat)
deriving DecidableEq

/-- Result of executing one SQL statement in the session: whether the driver
returned an error, and the codes of the asynchronous notices raised during
the execution, in arrival order. -/
structure ExecOutcome where
  ok : Bool
  notices : List (List Nat)
deriving DecidableEq

/-- `onPgxNotice` (migration.go lines 124–129): the handler assigns
`m.nestedTxDetected = (n.Code == "25001")`, overwriting the previous value of
the flag. -/
def onPgxNotice (flag : Bool) (code : List Nat) : Bool :=
  let _ := flag
  code = str "25001"

/-- The flag after a statement: cleared to `false` by the Runner, then
updated by `onPgxNotice` for each notice in arrival order. -/
def flagAfter (notices : List (List Nat)) : Bool :=
  notices.foldl onPgxNotice false

/-- `m.revEntries[id]` followed by `m.entries[i]`: lookup of the (first)
catalog entry with the given id. -/
def findEntry (entries : List Entry) (id : List Nat) : Option Entry :=
  entries.find? (fun e => e.id = id)

/-- The record-scanning loop of `Check` (migration.go lines 160–175):
returns the ids already in the database, or the first mismatch error. -/
def scanRecords (entries : List Entry) : List Record → Except MismatchHashError (List (List Nat))
  | [] => .ok []
  | r :: rs =>
      match findEntry entries r.id with
      | none => .error ⟨r.id, [], r.hash⟩
      | some e =>
          if e.hash ≠ r.hash then .error ⟨r.id, e.hash, r.hash⟩
          else (scanRecords entries rs).map (fun already => r.id :: already)

/-- The pending computation of `Check` (lines 180–186): catalog entries whose
id has no metadata record, in catalog order. -/
def pendingOf (entries : List Entry) (already : List (List Nat)) : List Entry :=
  entries.filter (fun e => ¬ e.id ∈ already)

/-- `Check` (migration.go lines 147–189), given the loaded metadata rows. -/
def check (entries : List Entry) (records : List Record) :
    Except MismatchHashError (List (List Nat)) :=
  (scanRecords entries records).map (fun already => (pendingOf entries already).map (·.id))

/-- The statement loop of `Run` (lines 219–234), acting on the working state
of the open transaction.  Returns the updated metadata rows or the first
error, together with the list of statements actually executed. -/
def applyLoop (env : List Nat → ExecOutcome) :
    List Entry → List Record → Except RunError (List Record) × List (List Nat)
  | [], meta => (.ok meta, [])
  | e :: rest, meta =>
      let r := env e.statement
      if r.ok = false then (.error (.execError e.id), [e.statement])
      else if flagAfter r.notices then (.error (.nestedTx e.id), [e.statement])
      else
        let (res, tr) := applyLoop env rest (meta ++ [⟨e.id, e.hash⟩])
        (res, e.statement :: tr)

deriving instance DecidableEq for Except

/-- Outcome of `Run`: the returned value, the metadata table after the
transaction committed or was rolled back, and the statements executed. -/
structure RunResult where
  ret : Except RunError (List (List Nat))
  meta : List Record
  trace : List (List Nat)
deriving DecidableEq

/-- `Run` (migration.go lines 197–242).  `begin`/`lock` and the final
`commit` are session operations assumed to succeed (connection failures are
outside the model); the deferred `rollback; ` on any non-committed exit is
modelled by returning the initial metadata table on every error path. -/
def run (env : List Nat → ExecOutcome) (entries : List Entry) (db : List Record) : RunResult :=
  match scanRecords entries db with
  | .error e => ⟨.error (.mismatch e), db, []⟩
  | .ok already =>
      let pend := pendingOf entries already
      match applyLoop env pend db with
      | (.error er, tr) => ⟨.error er, db, tr⟩
      | (.ok meta, tr) => ⟨.ok (pend.map (·.id)), meta, tr⟩

/-- Byte-wise lexicographic `<` on Go strings (`sort.Slice` comparator in
`New`, line 86). -/
def bytesLt : List Nat → List Nat → Bool
  | [], [] => false
  | [], _ :: _ => true
  | _ :: _, [] => false
  | a :: as, b :: bs => if a < b then true else if b < a then false else bytesLt as bs

/-- Insertion of an entry into a list sorted ascending by id. -/
def insertSorted (e : Entry) : List Entry → List Entry
  | [] => [e]
  | x :: rest => if bytesLt x.id e.id then x :: insertSorted e rest else e :: x :: rest

/-- `sort.Slice(m.entries, less = id <)` (`New`, line 86): the Go library
sort is an opaque comparison sort; its contract — a permutation sorted by
the comparator — is embedded as insertion sort. -/
def sortEntries : List Entry → List Entry
  | [] => []
  | e :: rest => insertSorted e (sortEntries rest)

/-- Catalog construction (`New`, lines 51–93) from the discovered
(filename, contents) pairs: hash each file, sort by id, and reject duplicate
ids (`panic` modelled as `none`).  Filesystem walking and the filename-shape
panics are external discovery. -/
def buildCatalog (files : List (List Nat × List Nat)) : Option (List Entry) :=
  let es := sortEntries (files.map (fun p => Entry.mk p.1 p.2 (hash p.2)))
  if (es.map (·.id)).Nodup then some es else none

/-! ### The ordinal (`user_version`) variant (`part_001`)

Its `__meta` key/value table is modelled as the application id, the integer
`user_version`, and the `stmt_hash_<i>` rows.  The table itself may be absent
(`none`): the `create table`/default-row step runs outside the transaction
and therefore survives a rollback. -/

structure MetaKV where
  appId : List Nat
  userVersion : Nat
  stmtHashes : List (Nat × List Nat)
deriving DecidableEq

/-- `select value from __meta where key = 'stmt_hash_<i>'`. -/
def lookupHash (m : MetaKV) (i : Nat) : Option (List Nat) :=
  (m.stmtHashes.find? (fun p => p.1 = i)).map (·.2)

/-- `insert into __meta(key, value)`: fails (primary-key conflict) if the key
is already present. -/
def insertKV (m : MetaKV) (i : Nat) (v : List Nat) : Option MetaKV :=
  if (lookupHash m i).isSome then none
  else some { m with stmtHashes := m.stmtHashes ++ [(i, v)] }

/-- The pre-transaction `create table if not exists` + default-rows step
(part_001, lines 50–59). -/
def ensureMeta : Option MetaKV → MetaKV
  | none => ⟨[], 0, []⟩
  | some m => m

/-- `strings.TrimSpace` (ASCII). -/
def trimSpace (l : List Nat) : List Nat :=
  ((l.dropWhile isSpace).reverse.dropWhile isSpace).reverse

/-- A line the line-based normalizer strips: blank after trimming, or a
`--` line comment (part_001, lines 178–180 and 188–190). -/
def blankOrComment (line : List Nat) : Bool :=
  let t := trimSpace line
  t.length = 0 || t.take 2 = str "--"

/-- `normalize` of part_001 (lines 171–197): split on `\n`, drop leading and
trailing blank/line-comment lines, re-join with `\n`. -/
def normalizeLines (input : List Nat) : List Nat :=
  let ls := input.splitOn 10
  let ls1 := ls.dropWhile blankOrComment
  let ls2 := (ls1.reverse.dropWhile blankOrComment).reverse
  List.intercalate [10] ls2

/-- `computeHash` of part_001 (lines 199–202): hex-encoded SHA-256. -/
def computeHash (input : List Nat) : List Nat := hexEncode (sha256 input)

/-- Every way `migrate` (part_001) can finish: normally, with one of its
error returns, or with the Go runtime panic from the out-of-range
`statements[i]` access. -/
inductive MigOutcome where
  | ok
  | errEmptyAppId
  | errInvalidAppId (appID : List Nat)
  | errHash (index : Nat) (normalized computed expected : List Nat)
  | errExec (index : Nat)
  | errStore (index : Nat)
  | panicked (index : Nat)
deriving DecidableEq

/-- The hash-verification loop (part_001, lines 106–135) over indices
`i, i+1, …, i+n-1` (`n` is the remaining count, initially `user_version`).
`statements[i]` is unguarded in the Go code: an index beyond the supplied
slice is the runtime panic, not an error return. -/
def verifyLoop (stmts : List (List Nat)) : Nat → Nat → MetaKV → Except MigOutcome MetaKV
  | _, 0, w => .ok w
  | i, n + 1, w =>
      match stmts[i]? with
      | none => .error (.panicked i)
      | some statement =>
          let normalized := normalizeLines statement
          let computed := computeHash normalized
          let expected := (lookupHash w i).getD []
          if expected = [] then
            match insertKV w i computed with
            | none => .error (.errStore i)
            | some w2 => verifyLoop stmts (i + 1) n w2
          else if expected ≠ computed then
            .error (.errHash i normalized computed expected)
          else verifyLoop stmts (i + 1) n w

/-- The statement-application loop (part_001, lines 137–151) over indices
`j, …, j+n-1` (initially `user_version ≤ j < len(statements)`), recording the
statements executed. -/
def applyLoopOrd (env : List Nat → Bool) (stmts : List (List Nat)) :
    Nat → Nat → MetaKV → Except MigOutcome MetaKV × List (List Nat)
  | _, 0, w => (.ok w, [])
  | j, n + 1, w =>
      let statement := stmts.getD j []
      if env statement = false then (.error (.errExec j), [statement])
      else
        match insertKV w j (computeHash (normalizeLines statement)) with
        | none => (.error (.errStore j), [statement])
        | some w2 =>
            let (res, tr) := applyLoopOrd env stmts (j + 1) n w2
            (res, statement :: tr)

/-- Outcome of the ordinal `migrate`: how it finished, the statements it
executed, and the `__meta` state left behind. -/
structure MigResult where
  outcome : MigOutcome
  trace : List (List Nat)
  final : Option MetaKV
deriving DecidableEq

/-- The in-transaction portion of `migrate` (part_001, lines 99–157): read
`user_version`, run the verification loop, run the application loop, set the
new `user_version` (`max` because the Go loop counter stops at
`max(user_version, len(statements))`).  Returns the final working state or
the first failure, plus the statements executed. -/
def migrateTx (env : List Nat → Bool) (stmts : List (List Nat)) (w1 : MetaKV) :
    Except MigOutcome MetaKV × List (List Nat) :=
  match verifyLoop stmts 0 w1.userVersion w1 with
  | .error o => (.error o, [])
  | .ok w2 =>
      match applyLoopOrd env stmts w1.userVersion (stmts.length - w1.userVersion) w2 with
      | (.error o, tr) => (.error o, tr)
      | (.ok w3, tr) => (.ok { w3 with userVersion := max w1.userVersion stmts.length }, tr)

/-- `migrate` of part_001 (lines 45–169).  The transaction is a working copy
of the ensured table (`cur`/`w1` embed the application-id read-or-initialize
of lines 80–97); the deferred `rollback` on every path where `committed`
stays false — error returns, the panic unwinding, and the dry-run's early
`return nil` — restores the post-`ensure` state `m0`. -/
def migrate (env : List Nat → Bool) (appID : List Nat) (stmts : List (List Nat))
    (dryrun : Bool) (db0 : Option MetaKV) : MigResult :=
  if appID = [] then ⟨.errEmptyAppId, [], db0⟩
  else
    let m0 := ensureMeta db0
    let cur := if m0.appId = [] then appID else m0.appId
    let w1 := if m0.appId = [] then { m0 with appId := appID } else m0
    if cur ≠ appID then ⟨.errInvalidAppId cur, [], some m0⟩
    else
      match migrateTx env stmts w1 with
      | (.error o, tr) => ⟨o, tr, some m0⟩
      | (.ok w4, tr) => if dryrun then ⟨.ok, tr, some m0⟩ else ⟨.ok, tr, some w4⟩


/-- No byte pair in the string opens a comment (`--` or `/\x2a`): such a pair,
possibly created by the whitespace-dropping itself, is the one thing a second
scan would consume. -/
def commentFree : List Nat → Bool
  | [] => true
  | [_] => true
  | c :: d :: rest => !(c = 45 && d = 45) && !(c = 47 && d = 42) && commentFree (d :: rest)

/-- A metadata row the verification loop accepts: its id resolves to a
catalog entry whose hash matches. -/
def cleanRecord (entries : List Entry) (r : Record) : Prop :=
  ∃ e, findEntry entries r.id = some e ∧ e.hash = r.hash

/-! ## Theorems -/

/-! ### Supporting lemmas: the character scan -/

set_option linter.unnecessarySimpa false in
theorem scan_mem {st : ScanState} {l : List Nat} {b : Nat} (h : b ∈ scan st l) : b ∈ l := by
  induction st, l using scan.induct with
  | _ => first
    | simpa [scan] using h
    | (simp only [scan] at h; split at h <;> simp_all <;> tauto)

set_option linter.unnecessarySimpa false in
theorem scan_not_space {st : ScanState} {l : List Nat} {b : Nat} (h : b ∈ scan st l) :
    isSpace b = false := by
  induction st, l using scan.induct with
  | _ => first
    | simpa [scan] using h
    | (simp only [scan] at h; split at h <;> simp_all <;>
        first
          | tauto
          | (rcases h with rfl | h
             · simpa using by assumption
             · tauto))

theorem scan_fixed {l : List Nat} (hs : ∀ b ∈ l, isSpace b = false)
    (hc : commentFree l = true) : scan .normal l = l := by
  induction l with
  | nil => rfl
  | cons c rest ih =>
      cases rest with
      | nil => simp [scan, hs c (by simp)]
      | cons d rest2 =>
          simp only [commentFree, Bool.and_eq_true, Bool.not_eq_true'] at hc
          obtain ⟨⟨h1, h2⟩, h3⟩ := hc
          simp only [scan, hs c (by simp), Bool.false_eq_true, if_false, ite_false, h1, h2]
          rw [ih (fun b hb => hs b (List.mem_cons_of_mem c hb)) h3]

theorem fixCR_cons_ne {c : Nat} (rest : List Nat) (hc : c ≠ 13) :
    fixCR (c :: rest) = c :: fixCR rest := by
  rw [fixCR.eq_def]; split <;> simp_all

theorem fixCR_cons13 (rest : List Nat) (h : ∀ rs, rest ≠ 10 :: rs) :
    fixCR (13 :: rest) = 10 :: fixCR rest := by
  rw [fixCR.eq_def]; split <;> simp_all

theorem fixCR_fixed {l : List Nat} (h : ∀ b ∈ l, b ≠ 13) : fixCR l = l := by
  induction l with
  | nil => rfl
  | cons c rest ih =>
      rw [fixCR_cons_ne rest (h c (by simp)),
          ih (fun b hb => h b (List.mem_cons_of_mem c hb))]

theorem lowerByte_fixed {b : Nat} (h : ¬ (65 ≤ b ∧ b ≤ 90)) : lowerByte b = b := by
  unfold lowerByte; split <;> omega

theorem lowerByte_no_upper (c : Nat) : ¬ (65 ≤ lowerByte c ∧ lowerByte c ≤ 90) := by
  unfold lowerByte; split <;> omega

theorem toLowerBytes_fixed {l : List Nat} (h : ∀ b ∈ l, ¬ (65 ≤ b ∧ b ≤ 90)) :
    toLowerBytes l = l := by
  simp only [toLowerBytes]
  conv_rhs => rw [← List.map_id l]
  exact List.map_congr_left (fun b hb => by simpa using lowerByte_fixed (h b hb))

theorem normalize_not_space {s : List Nat} {b : Nat} (h : b ∈ normalize s) :
    isSpace b = false := scan_not_space h

theorem normalize_no_upper {s : List Nat} {b : Nat} (h : b ∈ normalize s) :
    ¬ (65 ≤ b ∧ b ≤ 90) := by
  have hm := scan_mem h
  simp only [toLowerBytes, List.mem_map] at hm
  obtain ⟨c, -, rfl⟩ := hm
  exact lowerByte_no_upper c

theorem normalize_idem_aux {x : List Nat} (hc : commentFree (normalize x) = true) :
    normalize (normalize x) = normalize x := by
  have h13 : ∀ b ∈ normalize x, b ≠ 13 := fun b hb => by
    have := normalize_not_space hb
    simp [isSpace] at this
    omega
  have hns : ∀ b ∈ normalize x, isSpace b = false := fun b hb => normalize_not_space hb
  have hnu : ∀ b ∈ normalize x, ¬ (65 ≤ b ∧ b ≤ 90) := fun b hb => normalize_no_upper hb
  show scan .normal (toLowerBytes (fixCR (normalize x))) = normalize x
  rw [fixCR_fixed h13, toLowerBytes_fixed hnu, scan_fixed hns hc]

/-! ### Supporting lemmas: case-insensitivity -/

theorem upperByte_eq_13 {c : Nat} (h : upperByte c = 13) : c = 13 := by
  unfold upperByte at h; split at h <;> omega

theorem upperByte_eq_10 {c : Nat} (h : upperByte c = 10) : c = 10 := by
  unfold upperByte at h; split at h <;> omega

theorem lowerByte_upperByte (c : Nat) : lowerByte (upperByte c) = lowerByte c := by
  simp only [lowerByte, upperByte]
  repeat' split
  all_goals omega

theorem fixCR_map_upper (x : List Nat) :
    fixCR (toUpperBytes x) = toUpperBytes (fixCR x) := by
  induction x using fixCR.induct with
  | case1 => rfl
  | case2 rest ih =>
      simp only [toUpperBytes, List.map_cons] at ih ⊢
      rw [show upperByte 13 = 13 from rfl, show upperByte 10 = 10 from rfl,
          fixCR.eq_2, fixCR.eq_2, List.map_cons,
          show upperByte 10 = 10 from rfl, ih]
  | case3 rest hne ih =>
      simp only [toUpperBytes, List.map_cons] at ih ⊢
      rw [show upperByte 13 = 13 from rfl]
      have h1 : ∀ rs, List.map upperByte rest ≠ 10 :: rs := by
        intro rs hrs
        cases rest with
        | nil => simp at hrs
        | cons r rest2 =>
            simp only [List.map_cons, List.cons.injEq] at hrs
            exact hne rest2 (by rw [upperByte_eq_10 hrs.1])
      have h2 : ∀ rs, rest ≠ 10 :: rs := fun rs hrs => hne rs hrs
      rw [fixCR_cons13 _ h1, fixCR_cons13 _ h2, List.map_cons,
          show upperByte 10 = 10 from rfl, ih]
  | case4 c rest hp hne ih =>
      simp only [toUpperBytes, List.map_cons] at ih ⊢
      have hc : c ≠ 13 := fun hh => hne hh
      have hc2 : upperByte c ≠ 13 := fun hh => hc (upperByte_eq_13 hh)
      rw [fixCR_cons_ne _ hc2, fixCR_cons_ne _ hc, List.map_cons, ih]

theorem normalize_upper (x : List Nat) : normalize (toUpperBytes x) = normalize x := by
  unfold normalize
  rw [fixCR_map_upper]
  congr 1
  simp only [toLowerBytes, toUpperBytes, List.map_map]
  exact List.map_congr_left (fun b _ => lowerByte_upperByte b)

theorem hash_congr {x y : List Nat} (h : normalize x = normalize y) : hash x = hash y := by
  unfold hash; rw [h]

/-! ### Supporting lemmas: the Runner -/

theorem scanRecords_ok_of_clean {entries : List Entry} {rs : List Record}
    (h : ∀ r ∈ rs, cleanRecord entries r) :
    scanRecords entries rs = .ok (rs.map (·.id)) := by
  induction rs with
  | nil => rfl
  | cons r rest ih =>
      obtain ⟨e, he, hh⟩ := h r (by simp)
      simp only [scanRecords, he, hh, ne_eq, not_true_eq_false, if_false, ite_false]
      rw [ih (fun r' hr' => h r' (List.mem_cons_of_mem r hr'))]
      rfl

theorem scanRecords_ok_inv {entries : List Entry} {rs : List Record} {a : List (List Nat)}
    (h : scanRecords entries rs = .ok a) :
    a = rs.map (·.id) ∧ ∀ r ∈ rs, cleanRecord entries r := by
  induction rs generalizing a with
  | nil => simp only [scanRecords] at h; cases h; simp
  | cons r rest ih =>
      simp only [scanRecords] at h
      cases hf : findEntry entries r.id with
      | none => rw [hf] at h; cases h
      | some e =>
          rw [hf] at h
          by_cases hh : e.hash = r.hash
          · simp only [hh, ne_eq, not_true_eq_false, if_false, ite_false] at h
            cases hs : scanRecords entries rest with
            | error e2 => rw [hs] at h; cases h
            | ok a2 =>
                rw [hs] at h
                obtain ⟨ha2, hclean⟩ := ih hs
                cases h
                refine ⟨by simp [ha2], ?_⟩
                intro r' hr'
                rcases List.mem_cons.mp hr' with rfl | hr2
                · exact ⟨e, hf, hh⟩
                · exact hclean r' hr2
          · simp only [hh, ne_eq, ite_true, if_true] at h
            cases h

theorem scanRecords_append_clean {entries : List Entry} {db1 : List Record}
    (rs : List Record) (h : ∀ r ∈ db1, cleanRecord entries r) :
    scanRecords entries (db1 ++ rs) =
      (scanRecords entries rs).map (fun a => db1.map (·.id) ++ a) := by
  induction db1 with
  | nil =>
      rw [List.nil_append]
      cases hs : scanRecords entries rs <;> rfl
  | cons r rest ih =>
      obtain ⟨e, he, hh⟩ := h r (by simp)
      simp only [List.cons_append, scanRecords, he, hh, ne_eq, not_true_eq_false,
        if_false, ite_false]
      rw [show rest.append rs = rest ++ rs from rfl,
          ih (fun r' hr' => h r' (List.mem_cons_of_mem r hr'))]
      cases hs : scanRecords entries rs <;> rfl

theorem applyLoop_ok_inv {env : List Nat → ExecOutcome} {pend : List Entry}
    {meta m' : List Record} (h : (applyLoop env pend meta).1 = .ok m') :
    m' = meta ++ pend.map (fun e => ⟨e.id, e.hash⟩) ∧
    (applyLoop env pend meta).2 = pend.map (·.statement) := by
  induction pend generalizing meta with
  | nil => simp only [applyLoop] at h ⊢; cases h; simp
  | cons e rest ih =>
      simp only [applyLoop] at h ⊢
      by_cases hok : (env e.statement).ok = false
      · simp [hok] at h
      · simp only [hok, if_false, ite_false] at h ⊢
        by_cases hfl : flagAfter (env e.statement).notices
        · simp [hfl] at h
        · simp only [hfl, if_false, ite_false] at h ⊢
          obtain ⟨h1, h2⟩ := ih h
          simp [h1, h2]

theorem run_eq_of_scan_error {env : List Nat → ExecOutcome} {entries : List Entry}
    {db : List Record} {e : MismatchHashError} (h : scanRecords entries db = .error e) :
    run env entries db = ⟨.error (.mismatch e), db, []⟩ := by
  unfold run; rw [h]

theorem run_eq_of_apply_error {env : List Nat → ExecOutcome} {entries : List Entry}
    {db : List Record} {a : List (List Nat)} {er : RunError} {tr : List (List Nat)}
    (h : scanRecords entries db = .ok a)
    (h2 : applyLoop env (pendingOf entries a) db = (.error er, tr)) :
    run env entries db = ⟨.error er, db, tr⟩ := by
  unfold run; rw [h]
  show (match applyLoop env (pendingOf entries a) db with
    | (Except.error er, tr) => RunResult.mk (.error er) db tr
    | (Except.ok meta, tr) =>
        RunResult.mk (.ok (List.map (fun (e : Entry) => e.id) (pendingOf entries a))) meta tr) = _
  rw [h2]

theorem run_eq_of_apply_ok {env : List Nat → ExecOutcome} {entries : List Entry}
    {db : List Record} {a : List (List Nat)} {m : List Record} {tr : List (List Nat)}
    (h : scanRecords entries db = .ok a)
    (h2 : applyLoop env (pendingOf entries a) db = (.ok m, tr)) :
    run env entries db = ⟨.ok ((pendingOf entries a).map (·.id)), m, tr⟩ := by
  unfold run; rw [h]
  show (match applyLoop env (pendingOf entries a) db with
    | (Except.error er, tr) => RunResult.mk (.error er) db tr
    | (Except.ok meta, tr) =>
        RunResult.mk (.ok (List.map (fun (e : Entry) => e.id) (pendingOf entries a))) meta tr) = _
  rw [h2]

theorem run_ok_inv {env : List Nat → ExecOutcome} {entries : List Entry}
    {db : List Record} {l : List (List Nat)}
    (h : (run env entries db).ret = .ok l) :
    scanRecords entries db = .ok (db.map (·.id)) ∧
    l = (pendingOf entries (db.map (·.id))).map (·.id) ∧
    (run env entries db).meta =
      db ++ (pendingOf entries (db.map (·.id))).map (fun e => ⟨e.id, e.hash⟩) ∧
    (run env entries db).trace = (pendingOf entries (db.map (·.id))).map (·.statement) := by
  cases hs : scanRecords entries db with
  | error e => rw [run_eq_of_scan_error hs] at h; cases h
  | ok a =>
      obtain ⟨rfl, -⟩ := scanRecords_ok_inv hs
      cases ha : applyLoop env (pendingOf entries (db.map (·.id))) db with
      | mk res tr =>
          cases res with
          | error e2 => rw [run_eq_of_apply_error hs ha] at h; cases h
          | ok m =>
              rw [run_eq_of_apply_ok hs ha] at h ⊢
              cases h
              have h2 := applyLoop_ok_inv
                (show (applyLoop env (pendingOf entries (db.map (·.id))) db).1 = .ok m by rw [ha])
              rw [ha] at h2
              exact ⟨by simp [hs], rfl, h2.1, h2.2⟩

theorem findEntry_of_nodup {entries : List Entry} {e : Entry}
    (hnd : (entries.map (·.id)).Nodup) (he : e ∈ entries) :
    findEntry entries e.id = some e := by
  induction entries with
  | nil => cases he
  | cons e' rest ih =>
      simp only [List.map_cons, List.nodup_cons] at hnd
      rcases List.mem_cons.mp he with rfl | he2
      · simp [findEntry, List.find?]
      · by_cases hid : e'.id = e.id
        · exact absurd (hid ▸ List.mem_map_of_mem (·.id) he2) hnd.1
        · unfold findEntry
          rw [List.find?_cons_of_neg _ (by simpa using hid)]
          exact ih hnd.2 he2

/-! ### Supporting lemmas: the byte-wise string order of the catalog sort -/

theorem bytesLt_asymm {a b : List Nat} (h : bytesLt a b = true) : bytesLt b a = false := by
  induction a generalizing b with
  | nil => cases b <;> simp_all [bytesLt]
  | cons c rest ih =>
      cases b with
      | nil => simp [bytesLt] at h
      | cons d rest2 =>
          simp only [bytesLt] at h ⊢
          by_cases h1 : c < d
          · rw [if_neg (by omega : ¬ d < c), if_pos h1]
          · by_cases h2 : d < c
            · rw [if_neg h1, if_pos h2] at h; cases h
            · rw [if_neg h1, if_neg h2] at h
              rw [if_neg h2, if_neg h1]
              exact ih h

theorem bytesLt_trans {a b c : List Nat} (hab : bytesLt a b = true)
    (hbc : bytesLt b c = true) : bytesLt a c = true := by
  induction a generalizing b c with
  | nil =>
      cases b with
      | nil => simp [bytesLt] at hab
      | cons d r2 => cases c with
        | nil => simp [bytesLt] at hbc
        | cons e r3 => simp [bytesLt]
  | cons x rest ih =>
      cases b with
      | nil => simp [bytesLt] at hab
      | cons y rest2 =>
          cases c with
          | nil => simp [bytesLt] at hbc
          | cons z rest3 =>
              simp only [bytesLt] at hab hbc ⊢
              by_cases h1 : x < y
              · by_cases h2 : y < z
                · rw [if_pos (by omega : x < z)]
                · by_cases h3 : z < y
                  · rw [if_pos h3, if_neg (by omega : ¬ y < z)] at hbc; cases hbc
                  · have : y = z := by omega
                    subst this
                    rw [if_pos h1]
              · by_cases h2 : y < x
                · rw [if_neg h1, if_pos h2] at hab; cases hab
                · have : x = y := by omega
                  subst this
                  rw [if_neg h1, if_neg h2] at hab
                  by_cases h3 : x < z
                  · rw [if_pos h3]
                  · by_cases h4 : z < x
                    · rw [if_pos h4, if_neg h3] at hbc; cases hbc
                    · have : x = z := by omega
                      subst this
                      rw [if_neg h3, if_neg h4] at hbc ⊢
                      exact ih hab hbc

theorem bytesLt_connex {a b : List Nat} (h1 : bytesLt a b = false)
    (h2 : bytesLt b a = false) : a = b := by
  induction a generalizing b with
  | nil => cases b with
    | nil => rfl
    | cons d r => simp [bytesLt] at h1
  | cons c rest ih =>
      cases b with
      | nil => simp [bytesLt] at h2
      | cons d rest2 =>
          simp only [bytesLt] at h1 h2
          by_cases hcd : c < d
          · rw [if_pos hcd] at h1; cases h1
          · by_cases hdc : d < c
            · rw [if_pos hdc] at h2; cases h2
            · have : c = d := by omega
              subst this
              rw [if_neg hcd, if_neg hcd] at h1
              rw [if_neg hdc, if_neg hdc] at h2
              rw [ih h1 h2]

/-! ### Supporting lemmas: the catalog sort -/

theorem insertSorted_perm (e : Entry) (l : List Entry) :
    (insertSorted e l).Perm (e :: l) := by
  induction l with
  | nil => exact List.Perm.refl _
  | cons x rest ih =>
      simp only [insertSorted]
      split
      · exact (List.Perm.cons x ih).trans (List.Perm.swap e x rest)
      · exact List.Perm.refl _

theorem sortEntries_perm (l : List Entry) : (sortEntries l).Perm l := by
  induction l with
  | nil => exact List.Perm.refl _
  | cons e rest ih =>
      exact (insertSorted_perm e (sortEntries rest)).trans (List.Perm.cons e ih)

theorem mem_insertSorted {e x : Entry} {l : List Entry} (h : x ∈ insertSorted e l) :
    x = e ∨ x ∈ l := by
  have := (insertSorted_perm e l).mem_iff.mp h
  simpa using this

theorem insertSorted_pairwise {e : Entry} {l : List Entry}
    (h : List.Pairwise (fun a b : Entry => bytesLt b.id a.id = false) l) :
    List.Pairwise (fun a b : Entry => bytesLt b.id a.id = false) (insertSorted e l) := by
  induction l with
  | nil => simp [insertSorted]
  | cons x rest ih =>
      simp only [insertSorted]
      rcases List.pairwise_cons.mp h with ⟨hx, hrest⟩
      split
      case isTrue hlt =>
          refine List.pairwise_cons.mpr ⟨?_, ih hrest⟩
          intro y hy
          rcases mem_insertSorted hy with rfl | hy2
          · exact bytesLt_asymm hlt
          · exact hx y hy2
      case isFalse hge =>
          have hxe : bytesLt x.id e.id = false := by
            cases hb : bytesLt x.id e.id with
            | false => rfl
            | true => exact absurd hb hge
          refine List.pairwise_cons.mpr ⟨?_, h⟩
          intro y hy
          rcases List.mem_cons.mp hy with rfl | hy2
          · exact hxe
          · have hyx : bytesLt y.id x.id = false := hx y hy2
            cases hye : bytesLt y.id e.id with
            | false => rfl
            | true =>
                cases hex : bytesLt e.id x.id with
                | true => rw [bytesLt_trans hye hex] at hyx; cases hyx
                | false =>
                    rw [← bytesLt_connex hxe hex] at hye
                    rw [hye] at hyx; cases hyx

theorem sortEntries_pairwise (l : List Entry) :
    List.Pairwise (fun a b : Entry => bytesLt b.id a.id = false) (sortEntries l) := by
  induction l with
  | nil => simp [sortEntries]
  | cons e rest ih => exact insertSorted_pairwise ih

theorem buildCatalog_some_inv {files : List (List Nat × List Nat)} {entries : List Entry}
    (h : buildCatalog files = some entries) :
    (entries.map (·.id)).Nodup ∧
    List.Pairwise (fun a b : Entry => bytesLt b.id a.id = false) entries ∧
    (∀ e ∈ entries, e.hash = hash e.statement) := by
  simp only [buildCatalog] at h
  split at h
  case isFalse => cases h
  case isTrue hnd =>
      cases h
      refine ⟨hnd, sortEntries_pairwise _, ?_⟩
      intro e he
      have : e ∈ List.map (fun p => Entry.mk p.1 p.2 (hash p.2)) files :=
        (sortEntries_perm _).mem_iff.mp he
      obtain ⟨p, -, rfl⟩ := List.mem_map.mp this
      rfl

/-! ### Supporting lemmas: the hash is a nonempty hex string -/

theorem sha256_ne_nil (m : List Nat) : sha256 m ≠ [] := by
  simp [sha256, wordBytes]

theorem hash_ne_nil (s : List Nat) : hash s ≠ [] := by
  unfold hash
  cases hsha : sha256 (normalize s) with
  | nil => exact absurd hsha (sha256_ne_nil _)
  | cons b rest => simp [hexEncode]

/-! ### Supporting lemmas: the notice flag -/

theorem flagAfter_iff_last (codes : List (List Nat)) :
    flagAfter codes = true ↔ codes.getLast? = some (str "25001") := by
  induction codes using List.reverseRecOn with
  | nil => simp [flagAfter]
  | append_singleton l x ih =>
      simp only [flagAfter, List.foldl_append, List.foldl_cons, List.foldl_nil,
        onPgxNotice, List.getLast?_append, List.getLast?_singleton]
      simp

/-! Validation of the embedding against the repository's own test vectors
(`hash_test.go`). -/

theorem hash_vector_case_insensitive :
    hash (str "AB") = str "fb8e20fc2e4c3f248c60c39bd652f3c1347298bb977b8b4d5903b85055620603" := by
  decide

theorem hash_vector_whitespace :
    hash (str "A\n\t\t\t\t\t\tBC") = hash (str "abc") ∧
    hash (str "abc") = str "ba7816bf8f01cfea414140de5dae2223b00361a396177a9cb410ff61f20015ad" := by
  constructor <;> decide

theorem hash_vector_line_comment :
    hash (str "\n\t\tA--comment\n\t\t-- test comment\n\t\tBCd\n\t") = hash (str "abcd") ∧
    hash (str "abcd") = str "88d4266fd4e6338d13b845fcf289579d209c897823b9217da3e161936f031589" := by
  constructor <;> decide

theorem hash_vector_block_comment :
    hash (str "AB/* asdf asdfafs */CDE") = hash (str "abcde") ∧
    hash (str "abcde") = str "36bbe50ed96841d10443bcb670d6554f0a34b761be67ec9c4a8ad2c0c44ca42c" := by
  constructor <;> decide

theorem hash_vector_nested_block_comment :
    hash (str "AB/* asdf asdfaf/* asdf asdfafs */s /* asdf asdfa/* asdf asdfafs */fs */e*/CDEf")
      = str "bef57ec7f53a6d40beb640a780a639c83bc29ac8a9816f1fc6c5c6dcd93c4721" := by
  decide

/-! ### The repository's test vectors -/

theorem hash_vector_unterminated_block_comment :
    hash (str "AB/* asdf asdfaf/* asdf asdfafs */s /* asdf asdfa/* asdf asdfafs */fs */e*/CDEg/* asdfaw")
      = str "a5a511ec5899cadabdc4e2bbefb106e731c718d2cc022cf0f48f364d51ed02bb" := by
  decide



/-! ### Supporting lemmas: the ordinal variant -/


theorem verifyLoop_ok_bound {stmts : List (List Nat)} :
    ∀ {n i : Nat} {w w' : MetaKV}, verifyLoop stmts i n w = .ok w' →
      i + n ≤ stmts.length ∨ n = 0 := by
  intro n
  induction n with
  | zero => intro i w w' _; right; rfl
  | succ m ih =>
      intro i w w' h
      left
      simp only [verifyLoop] at h
      cases hg : stmts[i]? with
      | none => rw [hg] at h; cases h
      | some statement =>
          rw [hg] at h
          dsimp only at h
          have hi : i < stmts.length := by
            by_contra hc
            rw [List.getElem?_eq_none (by omega)] at hg
            cases hg
          by_cases he : (lookupHash w i).getD [] = []
          · rw [if_pos he] at h
            cases hk : insertKV w i (computeHash (normalizeLines statement)) with
            | none => rw [hk] at h; cases h
            | some w2 =>
                rw [hk] at h
                rcases ih h with h2 | h2
                · omega
                · omega
          · rw [if_neg he] at h
            split at h
            · cases h
            · rcases ih h with h2 | h2 <;> omega

theorem verifyLoop_no_panic {stmts : List (List Nat)} :
    ∀ {n i : Nat} {w : MetaKV} {j : Nat}, i + n ≤ stmts.length →
      verifyLoop stmts i n w ≠ .error (.panicked j) := by
  intro n
  induction n with
  | zero => intro i w j _ h; cases h
  | succ m ih =>
      intro i w j hb h
      simp only [verifyLoop] at h
      have hi : i < stmts.length := by omega
      rw [List.getElem?_eq_getElem hi] at h
      dsimp only at h
      by_cases he : (lookupHash w i).getD [] = []
      · rw [if_pos he] at h
        cases hk : insertKV w i (computeHash (normalizeLines stmts[i])) with
        | none => rw [hk] at h; cases h
        | some w2 =>
            rw [hk] at h
            exact ih (by omega) h
      · rw [if_neg he] at h
        split at h
        · cases h
        · exact ih (by omega) h


theorem applyLoopOrd_not_panicked {env : List Nat → Bool} {stmts : List (List Nat)} :
    ∀ {n j : Nat} {w : MetaKV} {k : Nat},
      (applyLoopOrd env stmts j n w).1 ≠ .error (.panicked k) := by
  intro n
  induction n with
  | zero => intro j w k h; cases h
  | succ m ih =>
      intro j w k h
      simp only [applyLoopOrd] at h
      by_cases hok : env (stmts.getD j []) = false
      · rw [if_pos hok] at h; cases h
      · rw [if_neg hok] at h
        cases hk : insertKV w j (computeHash (normalizeLines (stmts.getD j []))) with
        | none => rw [hk] at h; cases h
        | some w2 =>
            rw [hk] at h
            exact ih (by
              have := h
              simpa using this)


theorem applyLoopOrd_ok_trace {env : List Nat → Bool} {stmts : List (List Nat)} :
    ∀ {n j : Nat} {w w' : MetaKV}, j + n = stmts.length →
      (applyLoopOrd env stmts j n w).1 = .ok w' →
      (applyLoopOrd env stmts j n w).2 = stmts.drop j := by
  intro n
  induction n with
  | zero =>
      intro j w w' hlen _
      simp only [applyLoopOrd]
      rw [List.drop_eq_nil_of_le (by omega)]
  | succ m ih =>
      intro j w w' hlen h
      have hj : j < stmts.length := by omega
      simp only [applyLoopOrd] at h ⊢
      by_cases hok : env (stmts.getD j []) = false
      · rw [if_pos hok] at h; cases h
      · rw [if_neg hok] at h ⊢
        cases hk : insertKV w j (computeHash (normalizeLines (stmts.getD j []))) with
        | none => rw [hk] at h; cases h
        | some w2 =>
            simp only [hk] at h ⊢
            rw [ih (by omega) h, List.getD_eq_getElem _ _ hj,
                ← List.drop_eq_getElem_cons hj]

theorem applyLoopOrd_errExec {env : List Nat → Bool} {stmts : List (List Nat)} :
    ∀ {n j k : Nat} {w : MetaKV},
      (applyLoopOrd env stmts j n w).1 = .error (.errExec k) →
      env (stmts.getD k []) = false := by
  intro n
  induction n with
  | zero => intro j k w h; cases h
  | succ m ih =>
      intro j k w h
      simp only [applyLoopOrd] at h
      by_cases hok : env (stmts.getD j []) = false
      · rw [if_pos hok] at h
        dsimp only at h
        cases h
        exact hok
      · rw [if_neg hok] at h
        cases hk : insertKV w j (computeHash (normalizeLines (stmts.getD j []))) with
        | none => rw [hk] at h; cases h
        | some w2 =>
            rw [hk] at h
            dsimp only at h
            exact ih h

theorem verifyLoop_not_errExec {stmts : List (List Nat)} :
    ∀ {n i k : Nat} {w : MetaKV}, verifyLoop stmts i n w ≠ .error (.errExec k) := by
  intro n
  induction n with
  | zero => intro i k w h; cases h
  | succ m ih =>
      intro i k w h
      simp only [verifyLoop] at h
      cases hg : stmts[i]? with
      | none => rw [hg] at h; cases h
      | some statement =>
          rw [hg] at h
          dsimp only at h
          by_cases he : (lookupHash w i).getD [] = []
          · rw [if_pos he] at h
            cases hk : insertKV w i (computeHash (normalizeLines statement)) with
            | none => rw [hk] at h; cases h
            | some w2 => rw [hk] at h; exact ih h
          · rw [if_neg he] at h
            split at h
            · cases h
            · exact ih h


theorem verifyLoop_not_errOk {stmts : List (List Nat)} :
    ∀ {n i : Nat} {w : MetaKV}, verifyLoop stmts i n w ≠ .error .ok := by
  intro n
  induction n with
  | zero => intro i w h; cases h
  | succ m ih =>
      intro i w h
      simp only [verifyLoop] at h
      cases hg : stmts[i]? with
      | none => rw [hg] at h; cases h
      | some statement =>
          rw [hg] at h
          dsimp only at h
          by_cases he : (lookupHash w i).getD [] = []
          · rw [if_pos he] at h
            cases hk : insertKV w i (computeHash (normalizeLines statement)) with
            | none => rw [hk] at h; cases h
            | some w2 => rw [hk] at h; exact ih h
          · rw [if_neg he] at h
            split at h
            · cases h
            · exact ih h

theorem applyLoopOrd_not_errOk {env : List Nat → Bool} {stmts : List (List Nat)} :
    ∀ {n j : Nat} {w : MetaKV}, (applyLoopOrd env stmts j n w).1 ≠ .error .ok := by
  intro n
  induction n with
  | zero => intro j w h; cases h
  | succ m ih =>
      intro j w h
      simp only [applyLoopOrd] at h
      by_cases hok : env (stmts.getD j []) = false
      · rw [if_pos hok] at h; cases h
      · rw [if_neg hok] at h
        cases hk : insertKV w j (computeHash (normalizeLines (stmts.getD j []))) with
        | none => rw [hk] at h; cases h
        | some w2 =>
            simp only [hk] at h
            exact ih h



theorem migrateTx_ok_trace {env : List Nat → Bool} {stmts : List (List Nat)}
    {w1 w4 : MetaKV} {tr : List (List Nat)}
    (h : migrateTx env stmts w1 = (.ok w4, tr)) : tr = stmts.drop w1.userVersion := by
  unfold migrateTx at h
  cases hv : verifyLoop stmts 0 w1.userVersion w1 with
  | error o => rw [hv] at h; cases h
  | ok w2 =>
      rw [hv] at h
      dsimp only at h
      have hle : w1.userVersion ≤ stmts.length := by
        rcases verifyLoop_ok_bound hv with h1 | h1 <;> omega
      cases hap : applyLoopOrd env stmts w1.userVersion (stmts.length - w1.userVersion) w2 with
      | mk res tr2 =>
          rw [hap] at h
          cases res with
          | error o => cases h
          | ok w3 =>
              cases h
              have h1 : (applyLoopOrd env stmts w1.userVersion
                  (stmts.length - w1.userVersion) w2).1 = .ok w3 := by rw [hap]
              have h2 := applyLoopOrd_ok_trace (by omega) h1
              rw [hap] at h2
              exact h2

theorem migrateTx_errExec {env : List Nat → Bool} {stmts : List (List Nat)}
    {w1 : MetaKV} {j : Nat} {tr : List (List Nat)}
    (h : migrateTx env stmts w1 = (.error (.errExec j), tr)) :
    env (stmts.getD j []) = false := by
  unfold migrateTx at h
  cases hv : verifyLoop stmts 0 w1.userVersion w1 with
  | error o =>
      rw [hv] at h
      dsimp only at h
      cases h
      exact absurd hv verifyLoop_not_errExec
  | ok w2 =>
      rw [hv] at h
      dsimp only at h
      cases hap : applyLoopOrd env stmts w1.userVersion (stmts.length - w1.userVersion) w2 with
      | mk res tr2 =>
          rw [hap] at h
          cases res with
          | error o =>
              cases h
              exact applyLoopOrd_errExec (by rw [hap])
          | ok w3 => cases h

theorem migrateTx_not_panicked {env : List Nat → Bool} {stmts : List (List Nat)}
    {w1 : MetaKV} {i : Nat} (hle : w1.userVersion ≤ stmts.length) {tr : List (List Nat)} :
    migrateTx env stmts w1 ≠ (.error (.panicked i), tr) := by
  intro h
  unfold migrateTx at h
  cases hv : verifyLoop stmts 0 w1.userVersion w1 with
  | error o =>
      rw [hv] at h
      dsimp only at h
      cases h
      exact verifyLoop_no_panic (by omega) hv
  | ok w2 =>
      rw [hv] at h
      dsimp only at h
      cases hap : applyLoopOrd env stmts w1.userVersion (stmts.length - w1.userVersion) w2 with
      | mk res tr2 =>
          rw [hap] at h
          cases res with
          | error o =>
              cases h
              exact applyLoopOrd_not_panicked (by rw [hap])
          | ok w3 => cases h

theorem migrateTx_not_errOk {env : List Nat → Bool} {stmts : List (List Nat)}
    {w1 : MetaKV} {tr : List (List Nat)} :
    migrateTx env stmts w1 ≠ (.error .ok, tr) := by
  intro h
  unfold migrateTx at h
  cases hv : verifyLoop stmts 0 w1.userVersion w1 with
  | error o =>
      rw [hv] at h
      dsimp only at h
      cases h
      exact verifyLoop_not_errOk hv
  | ok w2 =>
      rw [hv] at h
      dsimp only at h
      cases hap : applyLoopOrd env stmts w1.userVersion (stmts.length - w1.userVersion) w2 with
      | mk res tr2 =>
          rw [hap] at h
          cases res with
          | error o =>
              cases h
              exact applyLoopOrd_not_errOk (by rw [hap])
          | ok w3 => cases h

theorem lookupHash_insertKV_ne {w w2 : MetaKV} {i k : Nat} {v : List Nat}
    (h : insertKV w i v = some w2) (hk : k ≠ i) : lookupHash w2 k = lookupHash w k := by
  unfold insertKV at h
  split at h
  · cases h
  · cases h
    unfold lookupHash
    have h2 : List.find? (fun p => p.1 = k) [(i, v)] = none := by
      simp [List.find?, Ne.symm hk]
    rw [List.find?_append, h2]
    cases List.find? (fun p => p.1 = k) w.stmtHashes <;> rfl

theorem verifyLoop_panics {stmts : List (List Nat)} :
    ∀ {n i : Nat} {w : MetaKV}, i ≤ stmts.length → stmts.length < i + n →
      (∀ k, i ≤ k → k < stmts.length → lookupHash w k = none) →
      verifyLoop stmts i n w = .error (.panicked stmts.length) := by
  intro n
  induction n with
  | zero => intro i w h1 h2 _; omega
  | succ m ih =>
      intro i w h1 h2 hlook
      by_cases hi : i = stmts.length
      · subst hi
        simp only [verifyLoop]
        rw [List.getElem?_eq_none (le_refl _)]
      · have hilt : i < stmts.length := by omega
        simp only [verifyLoop]
        rw [List.getElem?_eq_getElem hilt]
        dsimp only
        rw [hlook i (le_refl _) hilt]
        simp only [Option.getD_none, if_pos rfl, ite_true]
        have hins : insertKV w i (computeHash (normalizeLines stmts[i])) =
            some { w with stmtHashes := w.stmtHashes ++
              [(i, computeHash (normalizeLines stmts[i]))] } := by
          unfold insertKV
          rw [hlook i (le_refl _) hilt]
          rfl
        rw [hins]
        exact ih (by omega) (by omega) (fun k hk1 hk2 => by
          rw [lookupHash_insertKV_ne hins (by omega)]
          exact hlook k (by omega) hk2)

theorem migrate_panics_of_lt (env : List Nat → Bool) (a : List Nat) (s : List (List Nat))
    (dr : Bool) (db0 : Option MetaKV) (ha : a ≠ [])
    (hid : (ensureMeta db0).appId = [] ∨ (ensureMeta db0).appId = a)
    (hlen : s.length < (ensureMeta db0).userVersion)
    (hlook : ∀ k, k < s.length → lookupHash (ensureMeta db0) k = none) :
    migrate env a s dr db0 = ⟨.panicked s.length, [], some (ensureMeta db0)⟩ := by
  simp only [migrate, if_neg ha]
  have hTx : ∀ w1 : MetaKV, w1.userVersion = (ensureMeta db0).userVersion →
      w1.stmtHashes = (ensureMeta db0).stmtHashes →
      migrateTx env s w1 = (.error (.panicked s.length), []) := by
    intro w1 huv hsh
    have hv : verifyLoop s 0 w1.userVersion w1 = .error (.panicked s.length) := by
      refine verifyLoop_panics (by omega) (by omega) ?_
      intro k _ hk2
      rw [show lookupHash w1 k = lookupHash (ensureMeta db0) k by
        unfold lookupHash; rw [hsh]]
      exact hlook k hk2
    unfold migrateTx
    rw [hv]
  by_cases hcur : (ensureMeta db0).appId = []
  · simp only [hcur, ite_true]
    have hne : ¬ (a ≠ a) := fun hh => hh rfl
    simp only [if_neg hne]
    rw [hTx { ensureMeta db0 with appId := a } rfl rfl]
  · simp only [hcur, ite_false]
    have heqa : (ensureMeta db0).appId = a := by
      rcases hid with h1 | h1
      · exact absurd h1 hcur
      · exact h1
    have hne : ¬ ((ensureMeta db0).appId ≠ a) := fun hh => hh heqa
    simp only [if_neg hne]
    rw [hTx (ensureMeta db0) rfl rfl]

theorem migrate_no_panic_of_le (env : List Nat → Bool) (a : List Nat) (s : List (List Nat))
    (dr : Bool) (db0 : Option MetaKV) (i : Nat)
    (hle : (ensureMeta db0).userVersion ≤ s.length) :
    (migrate env a s dr db0).outcome ≠ .panicked i := by
  intro h
  simp only [migrate] at h
  by_cases ha : a = []
  · rw [if_pos ha] at h
    cases h
  · rw [if_neg ha] at h
    have hTx : ∀ w1 : MetaKV, w1.userVersion = (ensureMeta db0).userVersion →
        ∀ tr, migrateTx env s w1 ≠ (.error (.panicked i), tr) := by
      intro w1 huv tr
      exact migrateTx_not_panicked (by omega)
    by_cases hcur : (ensureMeta db0).appId = []
    · simp only [hcur, ite_true] at h
      have hne : ¬ (a ≠ a) := fun hh => hh rfl
      rw [if_neg hne] at h
      cases ht : migrateTx env s { ensureMeta db0 with appId := a } with
      | mk res tr =>
          rw [ht] at h
          cases res with
          | error o =>
              dsimp only at h
              cases h
              exact hTx { ensureMeta db0 with appId := a } rfl _ ht
          | ok w4 =>
              dsimp only at h
              split at h <;> cases h
    · simp only [hcur, ite_false] at h
      by_cases heq : (ensureMeta db0).appId ≠ a
      · rw [if_pos heq] at h
        cases h
      · rw [if_neg heq] at h
        cases ht : migrateTx env s (ensureMeta db0) with
        | mk res tr =>
            rw [ht] at h
            cases res with
            | error o =>
                dsimp only at h
                cases h
                exact hTx (ensureMeta db0) rfl _ ht
            | ok w4 =>
                dsimp only at h
                split at h <;> cases h

/-! ## Claim theorems -/

/-- C1, counterexample: `normalize` is not idempotent on every text.  On
`"- -"` the scan drops the middle space and emits the two dashes adjacently;
a second scan reads the resulting `"--"` as a line comment and drops it. -/
theorem c1_normalize_not_idempotent_counterexample :
    normalize (normalize (str "- -")) ≠ normalize (str "- -") := by decide

/-- C1, amended: the canonicalization underlying the content hash is
idempotent on every text whose canonical form contains no comment-opening
byte pair (`--` or `/\x2a`); dropping whitespace can manufacture such a pair,
and those are exactly the inputs on which idempotence fails. -/
theorem c1_normalize_idempotent_on_commentFree (x : List Nat)
    (hc : commentFree (normalize x) = true) :
    normalize (normalize x) = normalize x := normalize_idem_aux hc

/-- Witness for C1: a realistic statement with spacing, case and a line
comment satisfies the hypothesis and is a fixed point of a second pass. -/
theorem c1_normalize_idempotent_witness :
    commentFree (normalize (str "Create Table T(x int); -- note")) = true ∧
    normalize (normalize (str "Create Table T(x int); -- note"))
      = normalize (str "Create Table T(x int); -- note") :=
  ⟨by decide, c1_normalize_idempotent_on_commentFree _ (by decide)⟩

/-- C2, counterexample: the per-session flag is an assignment, not a latch.
A statement whose execution raises a `25001` notice followed by any other
notice leaves the flag cleared, and the run commits successfully instead of
aborting with a nested-transaction error. -/
theorem c2_notice_latch_counterexample :
    str "25001" ∈ ((fun s => ExecOutcome.mk true
        (if s = str "s1" then [str "25001", str "00000"] else [])) (str "s1")).notices ∧
    run (fun s => ExecOutcome.mk true
        (if s = str "s1" then [str "25001", str "00000"] else []))
      [⟨str "a", str "s1", str "h1"⟩] [] =
      ⟨.ok [str "a"], [⟨str "a", str "h1"⟩], [str "s1"]⟩ :=
  ⟨by decide, by decide⟩

/-- C2, amended: `onPgxNotice` overwrites the flag on every notice, so after
the Runner clears it the flag is set iff the LAST notice of the statement's
execution carries code 25001; a pending statement that executes successfully
and whose last notice is 25001 makes the run abort with a nested-transaction
error naming exactly that entry, rolling the metadata back. -/
theorem c2_flag_last_notice_amended :
    (∀ codes, flagAfter codes = true ↔ codes.getLast? = some (str "25001")) ∧
    (∀ (env : List Nat → ExecOutcome) entries db already e rest,
      scanRecords entries db = .ok already →
      pendingOf entries already = e :: rest →
      (env e.statement).ok = true →
      (env e.statement).notices.getLast? = some (str "25001") →
      run env entries db = ⟨.error (.nestedTx e.id), db, [e.statement]⟩) := by
  refine ⟨flagAfter_iff_last, ?_⟩
  intro env entries db already e rest hs hp hok hlast
  have hfl : flagAfter (env e.statement).notices = true := (flagAfter_iff_last _).mpr hlast
  have ha : applyLoop env (pendingOf entries already) db
      = (.error (.nestedTx e.id), [e.statement]) := by
    rw [hp]
    simp only [applyLoop, hok, Bool.true_eq_false, if_false, ite_false, hfl, if_true, ite_true]
  exact run_eq_of_apply_error hs ha

/-- Witness for C2's amended claim: a 25001 notice in last position aborts
the run and names the entry. -/
theorem c2_flag_last_notice_witness :
    run (fun s => ExecOutcome.mk true
        (if s = str "s1" then [str "00000", str "25001"] else []))
      [⟨str "a", str "s1", str "h1"⟩] [] =
      ⟨.error (.nestedTx (str "a")), [], [str "s1"]⟩ :=
  c2_flag_last_notice_amended.2 _ _ _ [] ⟨str "a", str "s1", str "h1"⟩ []
    (by decide) (by decide) (by decide) (by decide)

/-- C3: with every earlier loaded record clean, a record whose id has no
catalog entry fails the run with the consistency-shaped `MismatchHashError`
(zero-valued `CurrentHash`), and a record whose entry exists but whose hash
differs fails it with the drift-shaped error naming the entry and both hash
values; the drift error is a distinguishable value (its `CurrentHash`, a
64-hex-digit content hash, is nonempty), and in both cases the metadata is
rolled back untouched and no migration statement executes (empty trace). -/
theorem c3_check_missing_and_drift_errors (env : List Nat → ExecOutcome)
    (entries : List Entry) (db1 db2 : List Record) (r : Record)
    (hclean : ∀ r' ∈ db1, cleanRecord entries r')
    (hwf : ∀ e ∈ entries, ∃ s, e.hash = hash s) :
    (findEntry entries r.id = none →
       run env entries (db1 ++ r :: db2) =
         ⟨.error (.mismatch ⟨r.id, [], r.hash⟩), db1 ++ r :: db2, []⟩) ∧
    (∀ e, findEntry entries r.id = some e → e.hash ≠ r.hash →
       run env entries (db1 ++ r :: db2) =
         ⟨.error (.mismatch ⟨r.id, e.hash, r.hash⟩), db1 ++ r :: db2, []⟩ ∧
       (⟨r.id, e.hash, r.hash⟩ : MismatchHashError) ≠ ⟨r.id, [], r.hash⟩) := by
  constructor
  · intro hnone
    have hs : scanRecords entries (db1 ++ r :: db2) = .error ⟨r.id, [], r.hash⟩ := by
      rw [scanRecords_append_clean _ hclean]
      simp only [scanRecords, hnone]
      rfl
    exact run_eq_of_scan_error hs
  · intro e hsome hne
    have hs : scanRecords entries (db1 ++ r :: db2) = .error ⟨r.id, e.hash, r.hash⟩ := by
      rw [scanRecords_append_clean _ hclean]
      simp only [scanRecords, hsome, ne_eq, hne, not_false_eq_true, ite_true, if_true]
      rfl
    refine ⟨run_eq_of_scan_error hs, ?_⟩
    intro hcontra
    obtain ⟨s, hes⟩ := hwf e (List.mem_of_find?_eq_some hsome)
    have : e.hash = [] := congrArg MismatchHashError.CurrentHash hcontra
    exact hash_ne_nil s (hes ▸ this)

/-- Witness for C3: a ghost record and a drifted record against a one-entry
catalog, with the drift error provably distinct from the consistency error. -/
theorem c3_check_missing_and_drift_witness :
    run (fun _ => ExecOutcome.mk true []) [⟨str "a.sql", str "x", hash (str "x")⟩]
        [⟨str "ghost.sql", str "deadbeef"⟩] =
      ⟨.error (.mismatch ⟨str "ghost.sql", [], str "deadbeef"⟩),
        [⟨str "ghost.sql", str "deadbeef"⟩], []⟩ ∧
    run (fun _ => ExecOutcome.mk true []) [⟨str "a.sql", str "x", hash (str "x")⟩]
        [⟨str "a.sql", str "deadbeef"⟩] =
      ⟨.error (.mismatch ⟨str "a.sql", hash (str "x"), str "deadbeef"⟩),
        [⟨str "a.sql", str "deadbeef"⟩], []⟩ ∧
    (⟨str "a.sql", hash (str "x"), str "deadbeef"⟩ : MismatchHashError) ≠
      ⟨str "a.sql", [], str "deadbeef"⟩ := by
  have hwf : ∀ e ∈ [Entry.mk (str "a.sql") (str "x") (hash (str "x"))], ∃ s, e.hash = hash s :=
    fun e he => ⟨str "x", by rcases List.mem_singleton.mp he with rfl; rfl⟩
  refine ⟨?_, ?_, ?_⟩
  · exact (c3_check_missing_and_drift_errors (fun _ => ExecOutcome.mk true [])
      [⟨str "a.sql", str "x", hash (str "x")⟩] [] []
      ⟨str "ghost.sql", str "deadbeef"⟩ (by simp) hwf).1 (by decide)
  · exact ((c3_check_missing_and_drift_errors (fun _ => ExecOutcome.mk true [])
      [⟨str "a.sql", str "x", hash (str "x")⟩] [] []
      ⟨str "a.sql", str "deadbeef"⟩ (by simp) hwf).2
      ⟨str "a.sql", str "x", hash (str "x")⟩ (by decide) (by decide)).1
  · exact ((c3_check_missing_and_drift_errors (fun _ => ExecOutcome.mk true [])
      [⟨str "a.sql", str "x", hash (str "x")⟩] [] []
      ⟨str "a.sql", str "deadbeef"⟩ (by simp) hwf).2
      ⟨str "a.sql", str "x", hash (str "x")⟩ (by decide) (by decide)).2

/-- C4: a successful run of a `buildCatalog` catalog returns exactly the ids
of the entries that had no metadata record at the start, in strictly
ascending byte-lexicographic order, appends exactly one `(id, contentHash)`
record per returned id (each hash being the content hash of the entry's
statement), and the list is empty iff nothing was pending. -/
theorem c4_run_returns_pending_ids_sorted (files : List (List Nat × List Nat))
    (entries : List Entry) (env : List Nat → ExecOutcome) (db : List Record)
    (l : List (List Nat))
    (hb : buildCatalog files = some entries)
    (h : (run env entries db).ret = .ok l) :
    l = (pendingOf entries (db.map (·.id))).map (·.id) ∧
    List.Pairwise (fun a b => bytesLt a b = true) l ∧
    (run env entries db).meta =
      db ++ (pendingOf entries (db.map (·.id))).map (fun e => Record.mk e.id e.hash) ∧
    (∀ e ∈ entries, e.hash = hash e.statement) ∧
    (l = [] ↔ ∀ e ∈ entries, e.id ∈ db.map (·.id)) := by
  obtain ⟨hnd, hsort, hhash⟩ := buildCatalog_some_inv hb
  obtain ⟨hs, hl, hmeta, htrace⟩ := run_ok_inv h
  have hsub : List.Sublist (pendingOf entries (db.map (·.id))) entries :=
    List.filter_sublist _
  have hpend_sorted : List.Pairwise (fun a b : Entry => bytesLt b.id a.id = false)
      (pendingOf entries (db.map (·.id))) := hsort.sublist hsub
  have hpend_nd : ((pendingOf entries (db.map (·.id))).map (·.id)).Nodup :=
    hnd.sublist (hsub.map _)
  have hpend_ne : List.Pairwise (fun a b : Entry => a.id ≠ b.id)
      (pendingOf entries (db.map (·.id))) := List.pairwise_map.mp hpend_nd
  have hstrict : List.Pairwise (fun a b : Entry => bytesLt a.id b.id = true)
      (pendingOf entries (db.map (·.id))) := by
    refine (hpend_sorted.and hpend_ne).imp ?_
    intro a b ⟨hba, hne⟩
    cases hab : bytesLt a.id b.id with
    | true => rfl
    | false => exact absurd (bytesLt_connex hab hba) hne
  refine ⟨hl, ?_, hmeta, hhash, ?_⟩
  · rw [hl]
    exact List.pairwise_map.mpr hstrict
  · rw [hl]
    simp only [List.map_eq_nil_iff, pendingOf, List.filter_eq_nil_iff]
    constructor
    · intro hall e he
      have := hall e he
      simpa using this
    · intro hall e he
      simpa using hall e he

/-- Witness for C4: a two-file catalog (discovered out of order) against a
database that already holds the record for `a.sql`; the run applies exactly
`b.sql`. -/
theorem c4_run_returns_pending_ids_witness :
    [str "b.sql"] = (pendingOf
        [⟨str "a.sql", str "x", hash (str "x")⟩, ⟨str "b.sql", str "y", hash (str "y")⟩]
        (([⟨str "a.sql", hash (str "x")⟩] : List Record).map (·.id))).map (·.id) ∧
    List.Pairwise (fun a b => bytesLt a b = true) [str "b.sql"] ∧
    (run (fun _ => ExecOutcome.mk true [])
        [⟨str "a.sql", str "x", hash (str "x")⟩, ⟨str "b.sql", str "y", hash (str "y")⟩]
        [⟨str "a.sql", hash (str "x")⟩]).meta =
      [⟨str "a.sql", hash (str "x")⟩] ++ (pendingOf
        [⟨str "a.sql", str "x", hash (str "x")⟩, ⟨str "b.sql", str "y", hash (str "y")⟩]
        (([⟨str "a.sql", hash (str "x")⟩] : List Record).map (·.id))).map
          (fun e => Record.mk e.id e.hash) ∧
    (∀ e ∈ [Entry.mk (str "a.sql") (str "x") (hash (str "x")),
            Entry.mk (str "b.sql") (str "y") (hash (str "y"))],
        e.hash = hash e.statement) ∧
    ([str "b.sql"] = [] ↔ ∀ e ∈ [Entry.mk (str "a.sql") (str "x") (hash (str "x")),
            Entry.mk (str "b.sql") (str "y") (hash (str "y"))],
        e.id ∈ ([⟨str "a.sql", hash (str "x")⟩] : List Record).map (·.id)) :=
  c4_run_returns_pending_ids_sorted [(str "b.sql", str "y"), (str "a.sql", str "x")]
    [⟨str "a.sql", str "x", hash (str "x")⟩, ⟨str "b.sql", str "y", hash (str "y")⟩]
    (fun _ => ExecOutcome.mk true [])
    [⟨str "a.sql", hash (str "x")⟩]
    [str "b.sql"]
    (by decide) (by decide)

/-- C5: every failed run (verification error, statement execution error, or
nested-transaction detection) leaves the metadata table exactly as it was —
the deferred rollback discards all of the transaction's inserts. -/
theorem c5_failed_run_rolls_back (env : List Nat → ExecOutcome) (entries : List Entry)
    (db : List Record) (er : RunError) (h : (run env entries db).ret = .error er) :
    (run env entries db).meta = db := by
  cases hs : scanRecords entries db with
  | error e => rw [run_eq_of_scan_error hs]
  | ok a =>
      cases ha : applyLoop env (pendingOf entries a) db with
      | mk res tr =>
          cases res with
          | error e2 => rw [run_eq_of_apply_error hs ha]
          | ok m => rw [run_eq_of_apply_ok hs ha] at h; cases h

/-- Witness for C5: the second entry triggers the nested-transaction error
after the first already executed (both appear in the trace), yet zero
metadata records survive. -/
theorem c5_failed_run_rolls_back_witness :
    (run (fun s => ExecOutcome.mk true (if s = str "s2" then [str "25001"] else []))
      [⟨str "a", str "s1", str "h1"⟩, ⟨str "b", str "s2", str "h2"⟩] []).ret
        = .error (.nestedTx (str "b")) ∧
    (run (fun s => ExecOutcome.mk true (if s = str "s2" then [str "25001"] else []))
      [⟨str "a", str "s1", str "h1"⟩, ⟨str "b", str "s2", str "h2"⟩] []).trace
        = [str "s1", str "s2"] ∧
    (run (fun s => ExecOutcome.mk true (if s = str "s2" then [str "25001"] else []))
      [⟨str "a", str "s1", str "h1"⟩, ⟨str "b", str "s2", str "h2"⟩] []).meta = [] :=
  ⟨by decide, by decide,
    c5_failed_run_rolls_back _ _ _ (.nestedTx (str "b")) (by decide)⟩

/-- C8: the content hash is insensitive to case (upper-casing the text leaves
the hash unchanged) and factors through the canonical form, so an edit that
preserves the canonical form (whitespace/case/comment-only) leaves the hash
unchanged and the next run of that entry reports no drift and re-executes
nothing; an edit whose new hash differs makes the next run fail with a drift
error naming that entry and both hashes. -/
theorem c8_hash_insensitive_drift :
    (∀ x, hash (toUpperBytes x) = hash x) ∧
    (∀ x y, normalize x = normalize y → hash x = hash y) ∧
    (∀ (env : List Nat → ExecOutcome) (id x y : List Nat), normalize y = normalize x →
       run env [⟨id, y, hash y⟩] [⟨id, hash x⟩] = ⟨.ok [], [⟨id, hash x⟩], []⟩) ∧
    (∀ (env : List Nat → ExecOutcome) (id x y : List Nat), hash y ≠ hash x →
       run env [⟨id, y, hash y⟩] [⟨id, hash x⟩] =
         ⟨.error (.mismatch ⟨id, hash y, hash x⟩), [⟨id, hash x⟩], []⟩) := by
  refine ⟨fun x => hash_congr (normalize_upper x), fun x y h => hash_congr h, ?_, ?_⟩
  · intro env id x y h
    have hfe : findEntry [⟨id, y, hash y⟩] id = some ⟨id, y, hash y⟩ := by
      simp [findEntry, List.find?]
    have hh : hash y = hash x := hash_congr h
    have hs : scanRecords [⟨id, y, hash y⟩] [⟨id, hash x⟩] = .ok [id] := by
      simp only [scanRecords, hfe]
      simp only [hh]
      rw [if_neg (by simp)]
      rfl
    have hp : pendingOf [⟨id, y, hash y⟩] [id] = [] := by
      simp [pendingOf]
    have hap : applyLoop env (pendingOf [⟨id, y, hash y⟩] [id]) [⟨id, hash x⟩]
        = (.ok [⟨id, hash x⟩], []) := by rw [hp]; rfl
    have := run_eq_of_apply_ok hs hap
    rw [hp] at this
    simpa using this
  · intro env id x y h
    have hfe : findEntry [⟨id, y, hash y⟩] id = some ⟨id, y, hash y⟩ := by
      simp [findEntry, List.find?]
    have hs : scanRecords [⟨id, y, hash y⟩] [⟨id, hash x⟩] =
        .error ⟨id, hash y, hash x⟩ := by
      simp only [scanRecords, hfe, ne_eq, h, not_false_eq_true, ite_true, if_true]
    exact run_eq_of_scan_error hs

/-- Witness for C8: concrete cosmetic edits keep the hash and pass
verification; a semantic edit raises the drift error naming the entry. -/
theorem c8_hash_insensitive_drift_witness :
    hash (toUpperBytes (str "select 1; -- c")) = hash (str "select 1; -- c") ∧
    hash (str "a  b") = hash (str "A\tB") ∧
    run (fun _ => ExecOutcome.mk true [])
      [⟨str "m.sql", str "A\tB", hash (str "A\tB")⟩] [⟨str "m.sql", hash (str "a  b")⟩] =
      ⟨.ok [], [⟨str "m.sql", hash (str "a  b")⟩], []⟩ ∧
    run (fun _ => ExecOutcome.mk true [])
      [⟨str "m.sql", str "a c", hash (str "a c")⟩] [⟨str "m.sql", hash (str "a  b")⟩] =
      ⟨.error (.mismatch ⟨str "m.sql", hash (str "a c"), hash (str "a  b")⟩),
        [⟨str "m.sql", hash (str "a  b")⟩], []⟩ :=
  ⟨c8_hash_insensitive_drift.1 _,
   c8_hash_insensitive_drift.2.1 (str "a  b") (str "A\tB") (by decide),
   c8_hash_insensitive_drift.2.2.1 _ (str "m.sql") (str "a  b") (str "A\tB") (by decide),
   c8_hash_insensitive_drift.2.2.2 _ (str "m.sql") (str "a  b") (str "a c") (by decide)⟩

/-- C10: the scan retains semicolons (they are neither whitespace nor
comments), so `"ab;;;cd;"` and `"ab;;;cd"` have different canonical forms
and different content hashes; the digest the test expects both to equal is
the hash of the semicolon-free form only, so the test's asserted equality
("it should be ignoring last semicolon") does not hold of this `hash`. -/
theorem c10_semicolons_retained_test_contradicted :
    normalize (str "ab;;;cd;") ≠ normalize (str "ab;;;cd") ∧
    hash (str "ab;;;cd;") ≠ hash (str "ab;;;cd") ∧
    hash (str "ab;;;cd") =
      str "f3e0be0ac9b54823c959ffb60f5d3cea5d4a8f7219c1a9d7bd3dca5263749035" ∧
    hash (str "ab;;;cd;") ≠
      str "f3e0be0ac9b54823c959ffb60f5d3cea5d4a8f7219c1a9d7bd3dca5263749035" :=
  ⟨by decide, by decide, by decide, by decide⟩

/-- C6, counterexample: with an empty catalog (or any fully-applied state)
the FIRST run already returns an empty list, so "non-empty first, empty
second for every catalog and initial state" fails as stated. -/
theorem c6_first_run_nonempty_counterexample :
    (run (fun _ => ExecOutcome.mk true []) [] []).ret = .ok [] ∧
    ¬ ∃ l, l ≠ [] ∧ (run (fun _ => ExecOutcome.mk true []) [] []).ret = .ok l := by
  refine ⟨by decide, ?_⟩
  rintro ⟨l, hne, hl⟩
  rw [show (run (fun _ => ExecOutcome.mk true []) [] []).ret
      = .ok [] from by decide] at hl
  exact hne (Except.ok.inj hl).symm

/-- C6, amended: whenever a run of a duplicate-free catalog succeeds, running
again on the resulting metadata succeeds with an empty list (every catalog
entry now has a record), and the first run's list was non-empty exactly when
some entry had no metadata record initially. -/
theorem c6_second_run_empty_amended (env : List Nat → ExecOutcome) (entries : List Entry)
    (db : List Record) (l : List (List Nat))
    (hnd : (entries.map (·.id)).Nodup)
    (h : (run env entries db).ret = .ok l) :
    run env entries ((run env entries db).meta) =
      ⟨.ok [], (run env entries db).meta, []⟩ ∧
    (l ≠ [] ↔ ∃ e ∈ entries, ¬ e.id ∈ db.map (·.id)) := by
  obtain ⟨hs, hl, hmeta, htrace⟩ := run_ok_inv h
  obtain ⟨-, hclean⟩ := scanRecords_ok_inv hs
  set A := db.map (·.id) with hA
  set pend := pendingOf entries A with hpend
  set newRecs := pend.map (fun e => Record.mk e.id e.hash) with hnew
  have hclean2 : ∀ r ∈ db ++ newRecs, cleanRecord entries r := by
    intro r hr
    rcases List.mem_append.mp hr with hr1 | hr2
    · exact hclean r hr1
    · obtain ⟨e, he, rfl⟩ := List.mem_map.mp hr2
      have hemem : e ∈ entries := (List.mem_filter.mp he).1
      exact ⟨e, findEntry_of_nodup hnd hemem, rfl⟩
  have hs2 : scanRecords entries (db ++ newRecs) = .ok ((db ++ newRecs).map (·.id)) :=
    scanRecords_ok_of_clean hclean2
  have hids : (db ++ newRecs).map (·.id) = A ++ pend.map (·.id) := by
    simp [hnew, Function.comp]
  have hp2 : pendingOf entries ((db ++ newRecs).map (·.id)) = [] := by
    rw [hids]
    simp only [pendingOf, List.filter_eq_nil_iff]
    intro e he
    simp only [List.mem_append, decide_not, Bool.not_eq_true', decide_eq_false_iff_not,
      not_or, not_and, Classical.not_not]
    by_cases hin : e.id ∈ A
    · simp [hin]
    · have : e ∈ pend := by
        rw [hpend]
        simp only [pendingOf, List.mem_filter]
        exact ⟨he, by simpa using hin⟩
      simp [List.mem_map.mpr ⟨e, this, rfl⟩]
  constructor
  · rw [hmeta]
    have hap2 : applyLoop env (pendingOf entries ((db ++ newRecs).map (·.id)))
        (db ++ newRecs) = (.ok (db ++ newRecs), []) := by rw [hp2]; rfl
    have := run_eq_of_apply_ok hs2 hap2
    rw [hp2] at this
    simpa using this
  · rw [hl]
    simp only [ne_eq, List.map_eq_nil_iff, hpend, pendingOf, List.filter_eq_nil_iff]
    push_neg
    constructor
    · rintro ⟨e, he, hcond⟩
      exact ⟨e, he, by simpa using hcond⟩
    · rintro ⟨e, he, hcond⟩
      exact ⟨e, he, by simpa using hcond⟩

/-- Witness for C6's amended claim: one-entry catalog, empty initial state. -/
theorem c6_second_run_empty_witness :
    run (fun _ => ExecOutcome.mk true []) [⟨str "a.sql", str "s", str "h"⟩]
        ((run (fun _ => ExecOutcome.mk true []) [⟨str "a.sql", str "s", str "h"⟩] []).meta) =
      ⟨.ok [], (run (fun _ => ExecOutcome.mk true [])
          [⟨str "a.sql", str "s", str "h"⟩] []).meta, []⟩ ∧
    ([str "a.sql"] ≠ [] ↔ ∃ e ∈ [Entry.mk (str "a.sql") (str "s") (str "h")],
        ¬ e.id ∈ ([] : List Record).map (·.id)) :=
  c6_second_run_empty_amended (fun _ => ExecOutcome.mk true []) [⟨str "a.sql", str "s", str "h"⟩] []
    [str "a.sql"] (by decide) (by decide)


/-- C7: in dry-run mode the metadata table afterwards is exactly the
post-`ensureSchema` state (the transaction is rolled back, never committed),
the outcome and the executed-statement trace are identical to a committing
run's (so a broken statement still surfaces its execution error), on success
every pending statement (`user_version` onward) was executed, and an
execution-error outcome pinpoints a statement the database rejected. -/
theorem c7_dryrun_executes_but_rolls_back (env : List Nat → Bool) (a : List Nat) (s : List (List Nat))
    (db0 : Option MetaKV) (ha : a ≠ []) :
    (migrate env a s true db0).final = some (ensureMeta db0) ∧
    (migrate env a s true db0).outcome = (migrate env a s false db0).outcome ∧
    (migrate env a s true db0).trace = (migrate env a s false db0).trace ∧
    ((migrate env a s true db0).outcome = .ok →
      (migrate env a s true db0).trace = s.drop ((ensureMeta db0).userVersion)) ∧
    (∀ j, (migrate env a s true db0).outcome = .errExec j → env (s.getD j []) = false) := by
  simp only [migrate, if_neg ha]
  by_cases hcur : (ensureMeta db0).appId = []
  · simp only [hcur, ite_true]
    have hne : ¬ (a ≠ a) := fun hh => hh rfl
    simp only [if_neg hne]
    cases ht : migrateTx env s { ensureMeta db0 with appId := a } with
    | mk res tr =>
        cases res with
        | error o =>
            refine ⟨rfl, rfl, rfl, ?_, ?_⟩
            · intro hok
              have : o = MigOutcome.ok := hok
              exact absurd (this ▸ ht) migrateTx_not_errOk
            · intro j hj
              have : o = MigOutcome.errExec j := hj
              exact migrateTx_errExec (this ▸ ht)
        | ok w4 =>
            refine ⟨rfl, by simp, by simp, ?_, ?_⟩
            · intro _
              have h2 := migrateTx_ok_trace ht
              simpa using h2
            · intro j hj
              cases hj
  · simp only [hcur, ite_false]
    by_cases heq : (ensureMeta db0).appId ≠ a
    · simp only [if_pos heq]
      refine ⟨trivial, trivial, trivial, ?_, ?_⟩
      · intro h; cases h
      · intro j h; cases h
    · simp only [if_neg heq]
      cases ht : migrateTx env s (ensureMeta db0) with
      | mk res tr =>
          cases res with
          | error o =>
              refine ⟨rfl, rfl, rfl, ?_, ?_⟩
              · intro hok
                have : o = MigOutcome.ok := hok
                exact absurd (this ▸ ht) migrateTx_not_errOk
              · intro j hj
                have : o = MigOutcome.errExec j := hj
                exact migrateTx_errExec (this ▸ ht)
          | ok w4 =>
              refine ⟨rfl, by simp, by simp, ?_, ?_⟩
              · intro _
                exact migrateTx_ok_trace ht
              · intro j hj
                cases hj


/-- Witness for C7: dry-run on a fresh database executes the one pending
statement and leaves the (freshly ensured) metadata untouched. -/
theorem c7_dryrun_witness :
    (migrate (fun _ => true) (str "app") [str "s1"] true none).final
      = some (ensureMeta none) ∧
    (migrate (fun _ => true) (str "app") [str "s1"] true none).outcome
      = (migrate (fun _ => true) (str "app") [str "s1"] false none).outcome ∧
    (migrate (fun _ => true) (str "app") [str "s1"] true none).trace
      = (migrate (fun _ => true) (str "app") [str "s1"] false none).trace ∧
    ((migrate (fun _ => true) (str "app") [str "s1"] true none).outcome = .ok →
      (migrate (fun _ => true) (str "app") [str "s1"] true none).trace
        = [str "s1"].drop ((ensureMeta none).userVersion)) ∧
    (∀ j, (migrate (fun _ => true) (str "app") [str "s1"] true none).outcome = .errExec j →
      (fun _ => true : List Nat → Bool) ([str "s1"].getD j []) = false) :=
  c7_dryrun_executes_but_rolls_back (fun _ => true) (str "app") [str "s1"] none (by decide)

/-- C9: the ordinal `migrate` is index-safe exactly under the precondition
that the supplied statement count is at least the stored `user_version`: at
or above it, no input ever produces the out-of-range panic; below it (with a
usable application id and no stray stored statement hashes) the
hash-verification loop's unguarded `statements[i]` hits index
`len(statements)` and the call panics instead of returning an error value,
the deferred rollback restoring the post-ensure state. -/
theorem c9_ordinal_index_safety :
    (∀ (env : List Nat → Bool) (a : List Nat) (s : List (List Nat)) (dr : Bool)
        (db0 : Option MetaKV) (i : Nat),
      (ensureMeta db0).userVersion ≤ s.length →
      (migrate env a s dr db0).outcome ≠ .panicked i) ∧
    (∀ (env : List Nat → Bool) (a : List Nat) (s : List (List Nat)) (dr : Bool)
        (db0 : Option MetaKV), a ≠ [] →
      ((ensureMeta db0).appId = [] ∨ (ensureMeta db0).appId = a) →
      s.length < (ensureMeta db0).userVersion →
      (∀ k, k < s.length → lookupHash (ensureMeta db0) k = none) →
      migrate env a s dr db0 = ⟨.panicked s.length, [], some (ensureMeta db0)⟩) :=
  ⟨fun env a s dr db0 i h => migrate_no_panic_of_le env a s dr db0 i h,
   fun env a s dr db0 h1 h2 h3 h4 => migrate_panics_of_lt env a s dr db0 h1 h2 h3 h4⟩

/-- Witness for C9: three recorded applications but only one supplied
statement panics at index 1; a matching count does not panic. -/
theorem c9_ordinal_index_safety_witness :
    (migrate (fun _ => true) (str "app") [str "x"] false
        (some ⟨str "app", 1, [(0, computeHash (normalizeLines (str "x")))]⟩)).outcome
      ≠ .panicked 0 ∧
    migrate (fun _ => true) (str "app") [str "x"] false (some ⟨str "app", 3, []⟩) =
      ⟨.panicked 1, [], some ⟨str "app", 3, []⟩⟩ :=
  ⟨c9_ordinal_index_safety.1 (fun _ => true) (str "app") [str "x"] false
      (some ⟨str "app", 1, [(0, computeHash (normalizeLines (str "x")))]⟩) 0 (by decide),
   by
    have := c9_ordinal_index_safety.2 (fun _ => true) (str "app") [str "x"] false
      (some ⟨str "app", 3, []⟩) (by decide) (by decide) (by decide) (by decide)
    simpa using this⟩

end PsqlMigration
